import Mathlib

/-!
Verification of the Verona compiler's codegen pipeline
(`src/compiler/codegen/codegen.cc`).

The definitions below are a shallow embedding of `codegen.cc`.  Collaborators
that live outside that file (the `Generator`, the reachability analyzer, the
descriptor/function emitters, `truncate`) are modelled from the spec; each such
definition carries a doc comment saying so.
-/

/-- Types, as far as codegen observes them: `context.mk_unit()` and equality. -/
inductive Ty
  | unit
  | other (id : Nat)
deriving DecidableEq, Repr

/-- A generics parameter list (`Generics::types`); only emptiness is observed. -/
structure Generics where
  types : List Nat
deriving DecidableEq, Repr

/-- The `types` field of a `FnSignature`: argument types and return type. -/
structure FnSignatureTypes where
  arguments : List Ty
  return_type : Ty
deriving DecidableEq, Repr

/-- `FnSignature`: generics, optional explicit receiver, argument/return types. -/
structure FnSignature where
  generics : Generics
  receiver : Option Nat
  types : FnSignatureTypes
deriving DecidableEq, Repr

/-- A source range, as carried by a `Name`. -/
structure SourceRange where
  first : Nat
  last : Nat
deriving DecidableEq, Repr

/-- A name with its source range (`Name` in the AST). -/
structure Name where
  str : String
  source_range : SourceRange
deriving DecidableEq, Repr

/-- `Entity::Kind`: class, interface or primitive. -/
inductive EntityKind
  | Class
  | Interface
  | Primitive
deriving DecidableEq, Repr

/-- A method: name, signature, optional body (`none` for abstract/native). -/
structure Method where
  name : Name
  signature : FnSignature
  body : Option Nat
deriving DecidableEq, Repr

/-- An entity: kind, name, generics, fields and methods. -/
structure Entity where
  kind : EntityKind
  name : Name
  generics : Generics
  fields : List Name
  methods : List Method
deriving DecidableEq, Repr

/-- The fully-resolved program, owning all entities. -/
structure Program where
  entities : List Entity
deriving DecidableEq, Repr

/-- Modelled from the spec: `Program::find_entity` (declared in `compiler/ast.h`,
not under src) looks an entity up by name. -/
def Program.find_entity (p : Program) (s : String) : Option Entity :=
  p.entities.find? (fun e => e.name.str = s)

/-- Modelled from the spec: `lookup_member<Method>` (from `compiler/resolution.h`,
not under src) finds a member method of an entity by name. -/
def lookup_member (e : Entity) (s : String) : Option Method :=
  e.methods.find? (fun m => m.name.str = s)

/-- An instantiation: concrete type arguments for generic parameters. -/
structure Instantiation where
  arguments : List Ty
deriving DecidableEq, Repr

/-- `Instantiation::empty()`: the empty instantiation for non-generic uses. -/
def Instantiation.empty : Instantiation := ⟨[]⟩

/-- `CodegenItem<T>`: a definition paired with an instantiation. -/
structure CodegenItem (T : Type) where
  definition : T
  instantiation : Instantiation
deriving DecidableEq, Repr

/-- The diagnostic message ids used by `find_entry`. -/
inductive Diagnostic
  | NoMainClass
  | MainNotAClass
  | MainClassIsGeneric
  | NoMainMethod
  | InvalidMainSignature
deriving DecidableEq, Repr

/-- `DiagnosticKind`; codegen only emits errors. -/
inductive DiagnosticKind
  | Error
deriving DecidableEq, Repr

/-- One diagnostic written to the error stream: kind, anchor position
(`none` for a global diagnostic), message id. -/
structure Reported where
  kind : DiagnosticKind
  position : Option Nat
  diagnostic : Diagnostic
deriving DecidableEq, Repr

/-- `is_valid_main_signature`: no generics, no receiver, no arguments, and a
unit return type. -/
def is_valid_main_signature (signature : FnSignature) : Bool :=
  signature.generics.types.isEmpty && signature.receiver == none &&
    signature.types.arguments.isEmpty && signature.types.return_type == Ty.unit

/-- `find_entry`: search for the program entrypoint and check it has the right
signature.  Returns `none` plus the diagnostics printed to the error stream if
the entrypoint is not found or is invalid. -/
def find_entry (program : Program) :
    Option (CodegenItem Entity × CodegenItem Method) × List Reported :=
  match program.find_entity "Main" with
  | none =>
    (none, [⟨DiagnosticKind.Error, none, Diagnostic.NoMainClass⟩])
  | some main_class =>
    if main_class.kind ≠ EntityKind.Class then
      (none,
        [⟨DiagnosticKind.Error, some main_class.name.source_range.first,
          Diagnostic.MainNotAClass⟩])
    else if ¬ main_class.generics.types.isEmpty then
      (none,
        [⟨DiagnosticKind.Error, some main_class.name.source_range.first,
          Diagnostic.MainClassIsGeneric⟩])
    else
      match lookup_member main_class "main" with
      | none =>
        (none,
          [⟨DiagnosticKind.Error, some main_class.name.source_range.first,
            Diagnostic.NoMainMethod⟩])
      | some main_method =>
        if ¬ is_valid_main_signature main_method.signature then
          (none,
            [⟨DiagnosticKind.Error, some main_method.name.source_range.first,
              Diagnostic.InvalidMainSignature⟩])
        else
          (some (⟨main_class, Instantiation.empty⟩,
                 ⟨main_method, Instantiation.empty⟩), [])

/-- Modelled from the spec: a Generator label binding — either bound to a byte
offset by `define_label`, or bound to a table slot by `define_relocatable`. -/
inductive LabelBinding
  | offset (value : Nat)
  | relocatable (ordinal : Nat)
deriving DecidableEq, Repr

/-- The value a relocation referencing a bound label is patched with. -/
def resolveLabel : LabelBinding → Nat
  | .offset value => value
  | .relocatable ordinal => ordinal

/-- Little-endian byte encoding of `v` in `width` bytes. -/
def leBytes : Nat → Nat → List Nat
  | 0, _ => []
  | width + 1, v => v % 256 :: leBytes width (v / 256)

/-- Modelled from the spec: the Generator state (`compiler/codegen/generator.h`
is not under src) — an append-only byte buffer, label bindings in binding
order, and pending relocations as (buffer position, label id, byte width). -/
structure GenState where
  bytes : List Nat
  labels : List (Nat × LabelBinding)
  relocations : List (Nat × Nat × Nat)
deriving DecidableEq, Repr

/-- The fresh Generator handed an empty output vector. -/
def GenState.empty : GenState := ⟨[], [], []⟩

/-- Append raw bytes to the buffer. -/
def GenState.append (gs : GenState) (bs : List Nat) : GenState :=
  { gs with bytes := gs.bytes ++ bs }

/-- Modelled from the spec: `Generator::u16` scalar emission, little-endian. -/
def GenState.u16 (gs : GenState) (v : Nat) : GenState :=
  gs.append (leBytes 2 v)

/-- Modelled from the spec: `Generator::u32` applied to a label — append a
4-byte placeholder and record a relocation to that label. -/
def GenState.u32_label (gs : GenState) (label : Nat) : GenState :=
  { gs with
    bytes := gs.bytes ++ [0, 0, 0, 0],
    relocations := gs.relocations ++ [(gs.bytes.length, label, 4)] }

/-- Modelled from the spec: `Generator::define_label` binds a label to the
current end-of-buffer offset; re-binding is a fatal construction error. -/
def GenState.define_label (gs : GenState) (id : Nat) : Option GenState :=
  if (gs.labels.lookup id).isSome then none
  else some { gs with labels := gs.labels ++ [(id, .offset gs.bytes.length)] }

/-- Modelled from the spec: `Generator::define_relocatable` binds a label to a
table slot ordinal; re-binding is a fatal construction error. -/
def GenState.define_relocatable (gs : GenState) (id ordinal : Nat) :
    Option GenState :=
  if (gs.labels.lookup id).isSome then none
  else some { gs with labels := gs.labels ++ [(id, .relocatable ordinal)] }

/-- Walk the recorded relocations, patching each placeholder with the resolved
value of its label; fails if a referenced label was never bound. -/
def patchBytes : List Nat → Nat → List Nat → List Nat
  | bs, _, [] => bs
  | bs, pos, v :: vs => patchBytes (bs.set pos v) (pos + 1) vs

/-- The fixup loop of `Generator::finish`, one relocation at a time. -/
def applyRelocations (labels : List (Nat × LabelBinding)) :
    List (Nat × Nat × Nat) → List Nat → Option (List Nat)
  | [], bs => some bs
  | (pos, id, width) :: rest, bs =>
    match labels.lookup id with
    | none => none
    | some b => applyRelocations labels rest (patchBytes bs pos (leBytes width (resolveLabel b)))

/-- Modelled from the spec: `Generator::finish` — resolve every pending
relocation and return the finished buffer; fatal if a label is unbound. -/
def GenState.finish (gs : GenState) : Option (List Nat) :=
  applyRelocations gs.labels gs.relocations gs.bytes

/-- `MethodReachability`: the method's code label, absent when the analyzer
assigned none (methods without a body). -/
structure MethodReachability where
  label : Option Nat
deriving DecidableEq, Repr

/-- `EntityReachability`: the entity's descriptor label and its reachable
methods in the graph's stable iteration order. -/
structure EntityReachability where
  descriptor : Nat
  methods : List (CodegenItem Method × MethodReachability)
deriving DecidableEq, Repr

/-- The reachability graph: reachable entities in stable iteration order. -/
structure Reachability where
  entities : List (CodegenItem Entity × EntityReachability)
deriving DecidableEq, Repr

/-- Per-function analysis facts.  Modelled from the spec: the body translation
(`compiler/codegen/function.cc`, not under src) turns the body into bytecode
using these facts; the model carries that resulting encoding directly. -/
structure FnAnalysis where
  code : List Nat
deriving DecidableEq, Repr

/-- `AnalysisResults`: the per-method function analyses, keyed by definition. -/
structure AnalysisResults where
  functions : List (Method × FnAnalysis)
deriving DecidableEq, Repr

/-- `SelectorTable`: distinct virtual-method names; a name's selector index is
its position in the list. -/
structure SelectorTable where
  names : List String
deriving DecidableEq, Repr

/-- Modelled from the spec: `SelectorTable::build` (not under src) collects the
distinct method names across the reachable set in first-seen order. -/
def SelectorTable.build (r : Reachability) : SelectorTable :=
  ⟨r.entities.foldl
    (fun acc e =>
      e.2.methods.foldl
        (fun acc m =>
          if m.1.definition.name.str ∈ acc then acc
          else acc ++ [m.1.definition.name.str]) acc) []⟩

/-- `truncate<uint16_t>` from `ds/helpers.h` (not under src): modelled from the
spec as narrowing to 16 bits. -/
def truncate16 (n : Nat) : Nat := n % 65536

/-- `emit_program_header`: a 32-bit relocation to the entry method's code label
followed by the 16-bit truncated count of reachable entities.  `Map::at` and
`optional::value` failures abort the run (`none`). -/
def emit_program_header (reachability : Reachability) (gen : GenState)
    (main_class : CodegenItem Entity) (main_method : CodegenItem Method) :
    Option GenState :=
  match reachability.entities.find? (fun q => q.1 = main_class) with
  | none => none
  | some class_entry =>
    match class_entry.2.methods.find? (fun q => q.1 = main_method) with
    | none => none
    | some method_entry =>
      match method_entry.2.label with
      | none => none
      | some label =>
        some ((gen.u32_label label).u16 (truncate16 reachability.entities.length))

/-- A numeric tag for an entity kind, used by the descriptor record. -/
def entityKindTag : EntityKind → Nat
  | .Class => 0
  | .Interface => 1
  | .Primitive => 2

/-- Modelled from the spec: one dispatch-table slot of a descriptor — a 32-bit
relocation to the code label of the method implementing the selector, or the
sentinel for a selector this entity does not implement with code. -/
def dispatchSlot (gen : GenState) (info : EntityReachability) (name : String) :
    GenState :=
  match info.methods.find? (fun m => m.1.definition.name.str = name) with
  | some m =>
    match m.2.label with
    | some label => gen.u32_label label
    | none => gen.append (leBytes 4 4294967295)
  | none => gen.append (leBytes 4 4294967295)

/-- Modelled from the spec: `emit_descriptor` (`compiler/codegen/descriptor.cc`,
not under src) — kind tag, field-count metadata, then one dispatch slot per
selector. -/
def emit_descriptor (selectors : SelectorTable) (gen : GenState)
    (entity : CodegenItem Entity) (info : EntityReachability) : GenState :=
  let gen := gen.append [entityKindTag entity.definition.kind]
  let gen := gen.u16 entity.definition.fields.length
  selectors.names.foldl (fun gen n => dispatchSlot gen info n) gen

/-- The loop body of `emit_descriptors`: `index` starts at 0 and increments per
reachable entity. -/
def emit_descriptors_from (selectors : SelectorTable) :
    List (CodegenItem Entity × EntityReachability) → Nat → GenState →
    Option GenState
  | [], _, gen => some gen
  | (entity, info) :: rest, index, gen =>
    match gen.define_relocatable info.descriptor index with
    | none => none
    | some gen =>
      emit_descriptors_from selectors rest (index + 1)
        (emit_descriptor selectors gen entity info)

/-- `emit_descriptors`: register each reachable entity's descriptor at its
positional index and emit its record, in the graph's stable order. -/
def emit_descriptors (reachability : Reachability) (selectors : SelectorTable)
    (gen : GenState) : Option GenState :=
  emit_descriptors_from selectors reachability.entities 0 gen

/-- Modelled from the spec: `emit_function` (`compiler/codegen/function.cc`,
not under src) appends the bytecode translation of the method body, as carried
by the per-function analysis facts. -/
def emit_function (gen : GenState) (fn_analysis : FnAnalysis) : GenState :=
  gen.append fn_analysis.code

/-- The inner loop of `emit_functions` over one entity's reachable methods:
skip bodyless methods, otherwise bind the code label (`optional::value` aborts
when the label is absent) and emit the body (`Map::at` aborts when the analysis
is missing). -/
def emit_functions_methods (analysis : AnalysisResults) :
    List (CodegenItem Method × MethodReachability) → GenState → Option GenState
  | [], gen => some gen
  | (method, method_info) :: rest, gen =>
    if method.definition.body = none then
      emit_functions_methods analysis rest gen
    else
      match method_info.label with
      | none => none
      | some label =>
        match gen.define_label label with
        | none => none
        | some gen =>
          match analysis.functions.find? (fun q => q.1 = method.definition) with
          | none => none
          | some fa => emit_functions_methods analysis rest (emit_function gen fa.2)

/-- The outer loop of `emit_functions` over the reachable entities. -/
def emit_functions_entities (analysis : AnalysisResults) :
    List (CodegenItem Entity × EntityReachability) → GenState → Option GenState
  | [], gen => some gen
  | (_, entity_info) :: rest, gen =>
    match emit_functions_methods analysis entity_info.methods gen with
    | none => none
    | some gen => emit_functions_entities analysis rest gen

/-- `emit_functions`: for each reachable method with a body, in the graph's
stable order, bind its code label and emit its body. -/
def emit_functions (analysis : AnalysisResults) (reachability : Reachability)
    (gen : GenState) : Option GenState :=
  emit_functions_entities analysis reachability.entities gen

/-- The emission phase of `codegen` after entry resolution: header, then
descriptors, then function bodies, on a fresh Generator. -/
def codegen_emit (reachability : Reachability) (selectors : SelectorTable)
    (analysis : AnalysisResults) (main_class : CodegenItem Entity)
    (main_method : CodegenItem Method) : Option GenState :=
  match emit_program_header reachability GenState.empty main_class main_method with
  | none => none
  | some gen =>
    match emit_descriptors reachability selectors gen with
    | none => none
    | some gen => emit_functions analysis reachability gen

/-- `codegen`: resolve the entry point (empty result and diagnostics on
failure), compute reachability (`compute_reachability` lives in
`compiler/codegen/reachability.cc`, not under src, so the analyzer is taken as
a parameter), build the selector table, emit header/descriptors/functions and
run the fixup pass.  `none` models a fatal abort (a thrown `Map::at` or
`optional::value`, or a Generator construction error). -/
def codegen
    (computeReachability :
      CodegenItem Entity → CodegenItem Method → AnalysisResults → Reachability)
    (program : Program) (analysis : AnalysisResults) :
    Option (List Nat) × List Reported :=
  match find_entry program with
  | (none, diags) => (some [], diags)
  | (some entry, diags) =>
    let reachability := computeReachability entry.1 entry.2 analysis
    let selectors := SelectorTable.build reachability
    match codegen_emit reachability selectors analysis entry.1 entry.2 with
    | none => (none, diags)
    | some gen =>
      match gen.finish with
      | none => (none, diags)
      | some code => (some code, diags)

/-- All reachable (method, info) pairs in the graph's iteration order. -/
def flatMethods (r : Reachability) : List (CodegenItem Method × MethodReachability) :=
  (r.entities.map (fun e => e.2.methods)).flatten

/-- The reachable methods that have a body. -/
def bodied (ms : List (CodegenItem Method × MethodReachability)) :
    List (CodegenItem Method × MethodReachability) :=
  ms.filter (fun q => q.1.definition.body.isSome)

/-- The bytecode the function emitter appends for a method (empty when the
analysis map has no entry, in which case the run aborts instead). -/
def fnCodeOf (analysis : AnalysisResults) (m : CodegenItem Method) : List Nat :=
  match analysis.functions.find? (fun q => q.1 = m.definition) with
  | some fa => fa.2.code
  | none => []

/-- `g'` extends `g`: bytes, labels and relocations are only appended, and any
new relocation sits at or past `g`'s end of buffer. -/
def GenExtends (g g' : GenState) : Prop :=
  (∃ t, g'.bytes = g.bytes ++ t) ∧ (∃ t, g'.labels = g.labels ++ t) ∧
    (∃ t, g'.relocations = g.relocations ++ t ∧ ∀ q ∈ t, g.bytes.length ≤ q.1)

/-- Example entry method: `main(): Unit` with a body. -/
def exMainMethod : Method :=
  ⟨⟨"main", ⟨5, 9⟩⟩, ⟨⟨[]⟩, none, ⟨[], Ty.unit⟩⟩, some 0⟩

/-- Example entry class `Main` containing `exMainMethod`. -/
def exMainEntity : Entity :=
  ⟨EntityKind.Class, ⟨"Main", ⟨0, 4⟩⟩, ⟨[]⟩, [], [exMainMethod]⟩

/-- Example program consisting of the `Main` class alone. -/
def exProgram : Program := ⟨[exMainEntity]⟩

/-- Example reachability graph: the `Main` entity with descriptor label 0 and
its `main` method with code label 1. -/
def exReach : Reachability :=
  ⟨[(⟨exMainEntity, Instantiation.empty⟩,
     ⟨0, [(⟨exMainMethod, Instantiation.empty⟩, ⟨some 1⟩)]⟩)]⟩

/-- Example analysis results: `main`'s body encodes to the single byte 99. -/
def exAnalysis : AnalysisResults := ⟨[(exMainMethod, ⟨[99]⟩)]⟩

/-- Example reachability analyzer returning `exReach`. -/
def exF : CodegenItem Entity → CodegenItem Method → AnalysisResults → Reachability :=
  fun _ _ _ => exReach

/-- Example program whose `Main` entity is an interface. -/
def exInterfaceProgram : Program :=
  ⟨[⟨EntityKind.Interface, ⟨"Main", ⟨0, 4⟩⟩, ⟨[]⟩, [], []⟩]⟩

/-- Example program whose `Main` class has a generic parameter. -/
def exGenericProgram : Program :=
  ⟨[⟨EntityKind.Class, ⟨"Main", ⟨0, 4⟩⟩, ⟨[7]⟩, [], [exMainMethod]⟩]⟩

/-- The image `codegen` produces for the example program: entry offset 13,
descriptor count 1, the `Main` descriptor (kind tag, field count, one dispatch
slot patched to 13), then `main`'s body byte. -/
def exBytes : List Nat := [13, 0, 0, 0, 1, 0, 0, 0, 0, 13, 0, 0, 0, 99]

/-- C2: a program with no entity named "Main" makes `codegen` return the empty
result and report exactly one "no main class" diagnostic. -/
theorem codegen_no_main_class
    (f : CodegenItem Entity → CodegenItem Method → AnalysisResults → Reachability)
    (p : Program) (a : AnalysisResults)
    (h : ∀ e ∈ p.entities, e.name.str ≠ "Main") :
    codegen f p a =
      (some [], [⟨DiagnosticKind.Error, none, Diagnostic.NoMainClass⟩]) := by
  have hfind : p.find_entity "Main" = none := by
    rw [Program.find_entity, List.find?_eq_none]
    intro e he
    simpa using h e he
  simp [codegen, find_entry, hfind]

/-- Witness for C2 at a program with no entities. -/
theorem codegen_no_main_class_witness :
    codegen exF (Program.mk []) exAnalysis =
      (some [], [⟨DiagnosticKind.Error, none, Diagnostic.NoMainClass⟩]) :=
  codegen_no_main_class exF ⟨[]⟩ exAnalysis (by simp)

/-- C4: when the entity named "Main" is not a class, `codegen` returns the
empty result and reports "main not a class" anchored at Main's declaration. -/
theorem codegen_main_not_a_class
    (f : CodegenItem Entity → CodegenItem Method → AnalysisResults → Reachability)
    (p : Program) (a : AnalysisResults) (mc : Entity)
    (hfind : p.find_entity "Main" = some mc)
    (hk : mc.kind ≠ EntityKind.Class) :
    codegen f p a =
      (some [], [⟨DiagnosticKind.Error, some mc.name.source_range.first,
        Diagnostic.MainNotAClass⟩]) := by
  simp [codegen, find_entry, hfind, hk]

/-- Witness for C4 at a program whose `Main` is an interface. -/
theorem codegen_main_not_a_class_witness :
    codegen exF exInterfaceProgram exAnalysis =
      (some [], [⟨DiagnosticKind.Error, some 0, Diagnostic.MainNotAClass⟩]) :=
  codegen_main_not_a_class exF exInterfaceProgram exAnalysis
    ⟨EntityKind.Interface, ⟨"Main", ⟨0, 4⟩⟩, ⟨[]⟩, [], []⟩ (by decide) (by decide)

/-- C5: when the `Main` class declares generic parameters, `codegen` returns
the empty result and reports "main class is generic", regardless of what any
`main` body contains. -/
theorem codegen_main_class_generic
    (f : CodegenItem Entity → CodegenItem Method → AnalysisResults → Reachability)
    (p : Program) (a : AnalysisResults) (mc : Entity)
    (hfind : p.find_entity "Main" = some mc)
    (hk : mc.kind = EntityKind.Class)
    (hg : mc.generics.types ≠ []) :
    codegen f p a =
      (some [], [⟨DiagnosticKind.Error, some mc.name.source_range.first,
        Diagnostic.MainClassIsGeneric⟩]) := by
  simp [codegen, find_entry, hfind, hk, hg]

/-- Witness for C5 at a program whose `Main` class has one generic parameter. -/
theorem codegen_main_class_generic_witness :
    codegen exF exGenericProgram exAnalysis =
      (some [], [⟨DiagnosticKind.Error, some 0, Diagnostic.MainClassIsGeneric⟩]) :=
  codegen_main_class_generic exF exGenericProgram exAnalysis
    ⟨EntityKind.Class, ⟨"Main", ⟨0, 4⟩⟩, ⟨[7]⟩, [], [exMainMethod]⟩
    (by decide) (by decide) (by decide)

/-- C3: with "Main" found, a class and non-generic — a missing "main" method is
rejected with "no main method"; when "main" exists, entry resolution rejects
with "invalid main signature" exactly when the signature fails validity, where
validity means no generics, no receiver, no arguments and a unit return type. -/
theorem find_entry_main_method (p : Program) (mc : Entity)
    (hfind : p.find_entity "Main" = some mc)
    (hclass : mc.kind = EntityKind.Class)
    (hgen : mc.generics.types = []) :
    (∀ s : FnSignature, is_valid_main_signature s = true ↔
        (s.generics.types = [] ∧ s.receiver = none ∧
         s.types.arguments = [] ∧ s.types.return_type = Ty.unit)) ∧
    (lookup_member mc "main" = none →
      find_entry p = (none, [⟨DiagnosticKind.Error,
        some mc.name.source_range.first, Diagnostic.NoMainMethod⟩])) ∧
    (∀ mm : Method, lookup_member mc "main" = some mm →
      (is_valid_main_signature mm.signature = false →
        find_entry p = (none, [⟨DiagnosticKind.Error,
          some mm.name.source_range.first, Diagnostic.InvalidMainSignature⟩])) ∧
      (is_valid_main_signature mm.signature = true →
        find_entry p =
          (some (⟨mc, Instantiation.empty⟩, ⟨mm, Instantiation.empty⟩), []))) := by
  refine ⟨?_, ?_, ?_⟩
  · intro s
    simp [is_valid_main_signature, List.isEmpty_iff, and_assoc]
  · intro hm
    simp [find_entry, hfind, hclass, hgen, hm]
  · intro mm hm
    constructor
    · intro hs
      simp [find_entry, hfind, hclass, hgen, hm, hs]
    · intro hs
      simp [find_entry, hfind, hclass, hgen, hm, hs]

/-- Witness for C3 at the example program. -/
theorem find_entry_main_method_witness :
    (∀ s : FnSignature, is_valid_main_signature s = true ↔
        (s.generics.types = [] ∧ s.receiver = none ∧
         s.types.arguments = [] ∧ s.types.return_type = Ty.unit)) ∧
    (lookup_member exMainEntity "main" = none →
      find_entry exProgram = (none, [⟨DiagnosticKind.Error,
        some 0, Diagnostic.NoMainMethod⟩])) ∧
    (∀ mm : Method, lookup_member exMainEntity "main" = some mm →
      (is_valid_main_signature mm.signature = false →
        find_entry exProgram = (none, [⟨DiagnosticKind.Error,
          some mm.name.source_range.first, Diagnostic.InvalidMainSignature⟩])) ∧
      (is_valid_main_signature mm.signature = true →
        find_entry exProgram =
          (some (⟨exMainEntity, Instantiation.empty⟩,
                 ⟨mm, Instantiation.empty⟩), []))) :=
  find_entry_main_method exProgram exMainEntity (by decide) (by decide) (by decide)

/-- C6: a program passing every entry-point check resolves to the pair of the
Main entity and its main method, each with the empty instantiation. -/
theorem find_entry_success (p : Program) (mc : Entity) (mm : Method)
    (hfind : p.find_entity "Main" = some mc)
    (hclass : mc.kind = EntityKind.Class)
    (hgen : mc.generics.types = [])
    (hmm : lookup_member mc "main" = some mm)
    (hsig : is_valid_main_signature mm.signature = true) :
    find_entry p =
      (some (⟨mc, Instantiation.empty⟩, ⟨mm, Instantiation.empty⟩), []) := by
  simp [find_entry, hfind, hclass, hgen, hmm, hsig]

/-- Witness for C6 at the example program. -/
theorem find_entry_success_witness :
    find_entry exProgram =
      (some (⟨exMainEntity, Instantiation.empty⟩,
             ⟨exMainMethod, Instantiation.empty⟩), []) :=
  find_entry_success exProgram exMainEntity exMainMethod
    (by decide) (by decide) (by decide) (by decide) (by decide)

/-- C10: the header's 16-bit descriptor-count field is the reachable-entity
count narrowed by `truncate16`, and that narrowed value equals the true count
exactly when the count fits in 16 bits. -/
theorem emit_program_header_truncates (r : Reachability) (gs : GenState)
    (mc : CodegenItem Entity) (mm : CodegenItem Method) (gs' : GenState)
    (h : emit_program_header r gs mc mm = some gs') :
    gs'.bytes =
      gs.bytes ++ ([0, 0, 0, 0] ++ leBytes 2 (truncate16 r.entities.length)) ∧
    (truncate16 r.entities.length = r.entities.length ↔
      r.entities.length < 65536) := by
  constructor
  · unfold emit_program_header at h
    repeat' split at h
    any_goals simp at h
    subst h
    simp [GenState.u16, GenState.append, GenState.u32_label, List.append_assoc]
  · unfold truncate16
    omega

/-- Witness for C10 at the example reachability graph. -/
theorem emit_program_header_truncates_witness :
    (GenState.mk [0, 0, 0, 0, 1, 0] [] [(0, 1, 4)]).bytes =
      ([] : List Nat) ++ ([0, 0, 0, 0] ++ leBytes 2 (truncate16 exReach.entities.length)) ∧
    (truncate16 exReach.entities.length = exReach.entities.length ↔
      exReach.entities.length < 65536) :=
  emit_program_header_truncates exReach GenState.empty
    ⟨exMainEntity, Instantiation.empty⟩ ⟨exMainMethod, Instantiation.empty⟩
    ⟨[0, 0, 0, 0, 1, 0], [], [(0, 1, 4)]⟩ (by decide)

theorem lookup_eq_none_iff {β : Type} (l : List (Nat × β)) (k : Nat) :
    l.lookup k = none ↔ k ∉ l.map Prod.fst := by
  induction l with
  | nil => simp
  | cons p rest ih =>
    obtain ⟨a, b⟩ := p
    by_cases hk : k = a
    · subst hk
      simp [List.lookup_cons]
    · simp only [List.lookup_cons, List.map_cons, List.mem_cons]
      have : (k == a) = false := by simp [hk]
      simp [this, ih, hk]

theorem lookup_append_of_left_none {β : Type} (l1 l2 : List (Nat × β)) (k : Nat)
    (h : l1.lookup k = none) : (l1 ++ l2).lookup k = l2.lookup k := by
  rw [List.lookup_append, h, Option.none_or]

theorem lookup_append_none {β : Type} (l1 l2 : List (Nat × β)) (k : Nat)
    (h : (l1 ++ l2).lookup k = none) : l1.lookup k = none ∧ l2.lookup k = none := by
  rw [List.lookup_append, Option.or_eq_none] at h
  exact h

theorem genExtends_refl (g : GenState) : GenExtends g g :=
  ⟨⟨[], by simp⟩, ⟨[], by simp⟩, ⟨[], by simp, by simp⟩⟩

theorem genExtends_trans {g1 g2 g3 : GenState}
    (h12 : GenExtends g1 g2) (h23 : GenExtends g2 g3) : GenExtends g1 g3 := by
  obtain ⟨⟨b1, hb1⟩, ⟨l1, hl1⟩, ⟨r1, hr1, hp1⟩⟩ := h12
  obtain ⟨⟨b2, hb2⟩, ⟨l2, hl2⟩, ⟨r2, hr2, hp2⟩⟩ := h23
  refine ⟨⟨b1 ++ b2, by simp [hb2, hb1]⟩, ⟨l1 ++ l2, by simp [hl2, hl1]⟩,
    ⟨r1 ++ r2, by simp [hr2, hr1], ?_⟩⟩
  intro q hq
  rcases List.mem_append.mp hq with hm | hm
  · exact hp1 q hm
  · have h2 := hp2 q hm
    have hlen : g1.bytes.length ≤ g2.bytes.length := by simp [hb1]
    omega

theorem genExtends_append (g : GenState) (bs : List Nat) :
    GenExtends g (g.append bs) :=
  ⟨⟨bs, rfl⟩, ⟨[], by simp [GenState.append]⟩, ⟨[], by simp [GenState.append], by simp⟩⟩

theorem genExtends_u16 (g : GenState) (v : Nat) : GenExtends g (g.u16 v) :=
  genExtends_append g (leBytes 2 v)

theorem genExtends_u32_label (g : GenState) (L : Nat) :
    GenExtends g (g.u32_label L) :=
  ⟨⟨[0, 0, 0, 0], rfl⟩, ⟨[], by simp [GenState.u32_label]⟩,
    ⟨[(g.bytes.length, L, 4)], rfl, by simp⟩⟩

theorem genExtends_define_label {g g' : GenState} {id : Nat}
    (h : g.define_label id = some g') : GenExtends g g' := by
  unfold GenState.define_label at h
  split at h
  · simp at h
  · simp only [Option.some.injEq] at h
    subst h
    exact ⟨⟨[], by simp⟩, ⟨[(id, .offset g.bytes.length)], rfl⟩, ⟨[], by simp, by simp⟩⟩

theorem genExtends_define_relocatable {g g' : GenState} {id ordinal : Nat}
    (h : g.define_relocatable id ordinal = some g') : GenExtends g g' := by
  unfold GenState.define_relocatable at h
  split at h
  · simp at h
  · simp only [Option.some.injEq] at h
    subst h
    exact ⟨⟨[], by simp⟩, ⟨[(id, .relocatable ordinal)], rfl⟩, ⟨[], by simp, by simp⟩⟩

theorem genExtends_dispatchSlot (g : GenState) (info : EntityReachability)
    (n : String) : GenExtends g (dispatchSlot g info n) := by
  unfold dispatchSlot
  split
  · split
    · exact genExtends_u32_label g _
    · exact genExtends_append g _
  · exact genExtends_append g _

theorem genExtends_foldl {α : Type} (step : GenState → α → GenState)
    (h : ∀ g x, GenExtends g (step g x)) :
    ∀ (l : List α) (g : GenState), GenExtends g (l.foldl step g) := by
  intro l
  induction l with
  | nil => intro g; exact genExtends_refl g
  | cons x xs ih => intro g; exact genExtends_trans (h g x) (ih (step g x))

theorem genExtends_emit_descriptor (sel : SelectorTable) (g : GenState)
    (e : CodegenItem Entity) (info : EntityReachability) :
    GenExtends g (emit_descriptor sel g e info) := by
  unfold emit_descriptor
  exact genExtends_trans
    (genExtends_append g [entityKindTag e.definition.kind])
    (genExtends_trans
      (genExtends_u16 (g.append [entityKindTag e.definition.kind])
        e.definition.fields.length)
      (genExtends_foldl _ (fun g' x => genExtends_dispatchSlot g' info x)
        sel.names _))

theorem genExtends_emit_descriptors_from (sel : SelectorTable) :
    ∀ (es : List (CodegenItem Entity × EntityReachability)) (idx : Nat)
      (g g' : GenState), emit_descriptors_from sel es idx g = some g' →
      GenExtends g g' := by
  intro es
  induction es with
  | nil =>
    intro idx g g' h
    simp only [emit_descriptors_from, Option.some.injEq] at h
    subst h
    exact genExtends_refl g
  | cons e rest ih =>
    intro idx g g' h
    obtain ⟨entity, info⟩ := e
    simp only [emit_descriptors_from] at h
    split at h
    · simp at h
    · rename_i g2 hdef
      exact genExtends_trans (genExtends_define_relocatable hdef)
        (genExtends_trans (genExtends_emit_descriptor sel g2 entity info)
          (ih _ _ _ h))

theorem genExtends_emit_function (g : GenState) (fa : FnAnalysis) :
    GenExtends g (emit_function g fa) :=
  genExtends_append g fa.code

theorem genExtends_emit_functions_methods (analysis : AnalysisResults) :
    ∀ (ms : List (CodegenItem Method × MethodReachability)) (g g' : GenState),
      emit_functions_methods analysis ms g = some g' → GenExtends g g' := by
  intro ms
  induction ms with
  | nil =>
    intro g g' h
    simp only [emit_functions_methods, Option.some.injEq] at h
    subst h
    exact genExtends_refl g
  | cons q rest ih =>
    intro g g' h
    obtain ⟨method, method_info⟩ := q
    simp only [emit_functions_methods] at h
    split at h
    · exact ih _ _ h
    · split at h
      · simp at h
      · split at h
        · simp at h
        · rename_i g2 hdl
          split at h
          · simp at h
          · exact genExtends_trans (genExtends_define_label hdl)
              (genExtends_trans (genExtends_emit_function g2 _) (ih _ _ h))

theorem genExtends_emit_functions_entities (analysis : AnalysisResults) :
    ∀ (es : List (CodegenItem Entity × EntityReachability)) (g g' : GenState),
      emit_functions_entities analysis es g = some g' → GenExtends g g' := by
  intro es
  induction es with
  | nil =>
    intro g g' h
    simp only [emit_functions_entities, Option.some.injEq] at h
    subst h
    exact genExtends_refl g
  | cons e rest ih =>
    intro g g' h
    obtain ⟨entity, info⟩ := e
    simp only [emit_functions_entities] at h
    split at h
    · simp at h
    · rename_i g2 hms
      exact genExtends_trans (genExtends_emit_functions_methods analysis _ _ _ hms)
        (ih _ _ h)

theorem patchBytes_length :
    ∀ (vs bs : List Nat) (pos : Nat), (patchBytes bs pos vs).length = bs.length := by
  intro vs
  induction vs with
  | nil => intro bs pos; rfl
  | cons v vs ih => intro bs pos; simp [patchBytes, ih]

theorem patchBytes_getElem?_lt :
    ∀ (vs bs : List Nat) (pos i : Nat), i < pos →
      (patchBytes bs pos vs)[i]? = bs[i]? := by
  intro vs
  induction vs with
  | nil => intro bs pos i h; rfl
  | cons v vs ih =>
    intro bs pos i h
    rw [patchBytes, ih (bs.set pos v) (pos + 1) i (by omega),
      List.getElem?_set_ne (by omega)]

theorem applyRelocations_length (labels : List (Nat × LabelBinding)) :
    ∀ (rels : List (Nat × Nat × Nat)) (bs out : List Nat),
      applyRelocations labels rels bs = some out → out.length = bs.length := by
  intro rels
  induction rels with
  | nil =>
    intro bs out h
    simp only [applyRelocations, Option.some.injEq] at h
    subst h
    rfl
  | cons q rest ih =>
    intro bs out h
    obtain ⟨pos, id, width⟩ := q
    simp only [applyRelocations] at h
    split at h
    · simp at h
    · rw [ih _ _ h, patchBytes_length]

theorem applyRelocations_getElem?_lt (labels : List (Nat × LabelBinding)) (n : Nat) :
    ∀ (rels : List (Nat × Nat × Nat)) (bs out : List Nat),
      applyRelocations labels rels bs = some out →
      (∀ q ∈ rels, n ≤ q.1) → ∀ i, i < n → out[i]? = bs[i]? := by
  intro rels
  induction rels with
  | nil =>
    intro bs out h hq i hi
    simp only [applyRelocations, Option.some.injEq] at h
    subst h
    rfl
  | cons q rest ih =>
    intro bs out h hq i hi
    obtain ⟨pos, id, width⟩ := q
    simp only [applyRelocations] at h
    split at h
    · simp at h
    · have hpos : n ≤ pos := hq (pos, id, width) (by simp)
      rw [ih _ _ h (fun q hqm => hq q (by simp [hqm])) i hi,
        patchBytes_getElem?_lt _ _ _ _ (by omega)]

theorem take_eq_of_getElem?_lt (out bs : List Nat) (n : Nat)
    (h : ∀ i, i < n → out[i]? = bs[i]?) : out.take n = bs.take n := by
  apply List.ext_getElem?
  intro m
  rw [List.getElem?_take, List.getElem?_take]
  by_cases hm : m < n
  · simp only [hm, if_true]
    exact h m hm
  · simp [hm]

theorem emit_program_header_inv (r : Reachability) (gs : GenState)
    (mc : CodegenItem Entity) (mm : CodegenItem Method) (gs' : GenState)
    (h : emit_program_header r gs mc mm = some gs') :
    ∃ ce me L,
      r.entities.find? (fun q => q.1 = mc) = some ce ∧
      ce.2.methods.find? (fun q => q.1 = mm) = some me ∧
      me.2.label = some L ∧
      gs' = (gs.u32_label L).u16 (truncate16 r.entities.length) := by
  unfold emit_program_header at h
  repeat' split at h
  any_goals simp at h
  rename_i x1 ce hce x2 me hme x3 L hL
  exact ⟨ce, me, L, hce, hme, hL, h.symm⟩

theorem codegen_emit_inv (reach : Reachability) (sel : SelectorTable)
    (analysis : AnalysisResults) (mc : CodegenItem Entity)
    (mm : CodegenItem Method) (gs : GenState)
    (h : codegen_emit reach sel analysis mc mm = some gs) :
    ∃ ce me L,
      reach.entities.find? (fun q => q.1 = mc) = some ce ∧
      ce.2.methods.find? (fun q => q.1 = mm) = some me ∧
      me.2.label = some L ∧
      GenExtends ((GenState.empty.u32_label L).u16 (truncate16 reach.entities.length)) gs := by
  unfold codegen_emit at h
  split at h
  · simp at h
  · rename_i gs1 hhdr
    obtain ⟨ce, me, L, hce, hme, hL, hgs1⟩ :=
      emit_program_header_inv reach GenState.empty mc mm gs1 hhdr
    subst hgs1
    split at h
    · simp at h
    · rename_i gs2 hdesc
      refine ⟨ce, me, L, hce, hme, hL, ?_⟩
      exact genExtends_trans
        (genExtends_emit_descriptors_from sel reach.entities 0 _ gs2 hdesc)
        (genExtends_emit_functions_entities analysis reach.entities gs2 gs h)

theorem codegen_success_inv
    (f : CodegenItem Entity → CodegenItem Method → AnalysisResults → Reachability)
    (p : Program) (a : AnalysisResults) (mc : CodegenItem Entity)
    (mm : CodegenItem Method) (r : List Nat) (ds : List Reported)
    (hentry : (find_entry p).1 = some (mc, mm))
    (hrun : codegen f p a = (some r, ds)) :
    ∃ gs,
      codegen_emit (f mc mm a) (SelectorTable.build (f mc mm a)) a mc mm = some gs ∧
      gs.finish = some r := by
  rcases hfp : find_entry p with ⟨o, d⟩
  rw [hfp] at hentry
  simp only at hentry
  subst hentry
  unfold codegen at hrun
  rw [hfp] at hrun
  simp only at hrun
  split at hrun
  · simp at hrun
  · rename_i gs hce
    split at hrun
    · simp at hrun
    · rename_i code hfin
      simp only [Prod.mk.injEq, Option.some.injEq] at hrun
      exact ⟨gs, hce, by rw [hfin, hrun.1]⟩

theorem header_bytes_shape (L cnt : Nat) :
    ((GenState.empty.u32_label L).u16 (truncate16 cnt)).bytes =
      0 :: 0 :: 0 :: 0 :: (truncate16 cnt % 256) :: (truncate16 cnt / 256 % 256) :: [] ∧
    ((GenState.empty.u32_label L).u16 (truncate16 cnt)).relocations = [(0, L, 4)] ∧
    ((GenState.empty.u32_label L).u16 (truncate16 cnt)).bytes.length = 6 := by
  refine ⟨?_, ?_, ?_⟩ <;>
    simp [GenState.u16, GenState.append, GenState.u32_label, GenState.empty, leBytes]

theorem patchBytes_zero_le4 (v x0 x1 x2 x3 x4 x5 : Nat) (t : List Nat) :
    patchBytes (x0 :: x1 :: x2 :: x3 :: x4 :: x5 :: t) 0 (leBytes 4 v) =
      (leBytes 4 v ++ [x4, x5]) ++ t := rfl

/-- C1: `codegen` returns an empty byte sequence exactly when entry-point
resolution failed; on success the returned bytes are the finished buffer of
the full emission pipeline after the fixup pass, never a partial one. -/
theorem codegen_empty_iff
    (f : CodegenItem Entity → CodegenItem Method → AnalysisResults → Reachability)
    (p : Program) (a : AnalysisResults) (r : List Nat) (ds : List Reported)
    (h : codegen f p a = (some r, ds)) :
    (r = [] ↔ (find_entry p).1 = none) ∧
    (∀ mc mm, (find_entry p).1 = some (mc, mm) →
      ∃ gs,
        codegen_emit (f mc mm a) (SelectorTable.build (f mc mm a)) a mc mm =
          some gs ∧
        gs.finish = some r) := by
  rcases hfp : find_entry p with ⟨o, d⟩
  cases o with
  | none =>
    unfold codegen at h
    rw [hfp] at h
    simp only [Prod.mk.injEq, Option.some.injEq] at h
    constructor
    · simp [← h.1]
    · intro mc mm hc
      simp at hc
  | some entry =>
    obtain ⟨mc, mm⟩ := entry
    have hentry : (find_entry p).1 = some (mc, mm) := by rw [hfp]
    obtain ⟨gs, hce, hfin⟩ := codegen_success_inv f p a mc mm r ds hentry h
    obtain ⟨ce, me, L, _, _, _, hext⟩ :=
      codegen_emit_inv _ _ _ _ _ _ hce
    obtain ⟨⟨t, hbytes⟩, _, _⟩ := hext
    have hhl := (header_bytes_shape L (f mc mm a).entities.length).2.2
    unfold GenState.finish at hfin
    have hlen := applyRelocations_length gs.labels gs.relocations gs.bytes r hfin
    have hgs6 : 6 ≤ gs.bytes.length := by
      rw [hbytes, List.length_append, hhl]
      omega
    constructor
    · constructor
      · intro hr
        rw [hr] at hlen
        simp at hlen
        omega
      · intro hnone
        simp at hnone
    · intro mc' mm' hc
      simp only [Option.some.injEq, Prod.mk.injEq] at hc
      obtain ⟨rfl, rfl⟩ := hc
      exact ⟨gs, hce, hfin⟩

/-- Witness for C1 at a full successful run on the example program. -/
theorem codegen_empty_iff_witness :
    (exBytes = [] ↔ (find_entry exProgram).1 = none) ∧
    (∀ mc mm, (find_entry exProgram).1 = some (mc, mm) →
      ∃ gs,
        codegen_emit (exF mc mm exAnalysis)
          (SelectorTable.build (exF mc mm exAnalysis)) exAnalysis mc mm =
          some gs ∧
        gs.finish = some exBytes) :=
  codegen_empty_iff exF exProgram exAnalysis exBytes [] (by rfl)

/-- C7: on a successful run the image starts with the 6-byte header — the
32-bit entry offset patched to the resolved code label of Main.main, then the
16-bit reachable-entity count — before any descriptor or function body. -/
theorem codegen_header_layout
    (f : CodegenItem Entity → CodegenItem Method → AnalysisResults → Reachability)
    (p : Program) (a : AnalysisResults) (mc : CodegenItem Entity)
    (mm : CodegenItem Method) (r : List Nat) (ds : List Reported)
    (hentry : (find_entry p).1 = some (mc, mm))
    (hrun : codegen f p a = (some r, ds)) :
    ∃ ce me L gs b,
      (f mc mm a).entities.find? (fun q => q.1 = mc) = some ce ∧
      ce.2.methods.find? (fun q => q.1 = mm) = some me ∧
      me.2.label = some L ∧
      codegen_emit (f mc mm a) (SelectorTable.build (f mc mm a)) a mc mm =
        some gs ∧
      gs.labels.lookup L = some b ∧
      r.take 6 = leBytes 4 (resolveLabel b) ++
        leBytes 2 (truncate16 (f mc mm a).entities.length) := by
  obtain ⟨gs, hce, hfin⟩ := codegen_success_inv f p a mc mm r ds hentry hrun
  obtain ⟨ce, me, L, h1, h2, h3, hext⟩ := codegen_emit_inv _ _ _ _ _ _ hce
  obtain ⟨⟨t, hbytes⟩, _, ⟨t2, hrel, hpos⟩⟩ := hext
  obtain ⟨hhb, hhr, hhl⟩ := header_bytes_shape L (f mc mm a).entities.length
  rw [hhb] at hbytes
  rw [hhr] at hrel
  rw [hhl] at hpos
  unfold GenState.finish at hfin
  rw [hrel, List.cons_append, List.nil_append] at hfin
  simp only [applyRelocations] at hfin
  cases hb : gs.labels.lookup L with
  | none =>
    rw [hb] at hfin
    simp at hfin
  | some b =>
    rw [hb] at hfin
    simp only at hfin
    rw [hbytes] at hfin
    simp only [List.cons_append, List.nil_append] at hfin
    rw [patchBytes_zero_le4] at hfin
    refine ⟨ce, me, L, gs, b, h1, h2, h3, hce, hb, ?_⟩
    have hpref := applyRelocations_getElem?_lt gs.labels 6 t2 _ r hfin hpos
    have htake := take_eq_of_getElem?_lt r _ 6 hpref
    rw [htake,
      show (6 : Nat) =
        (leBytes 4 (resolveLabel b) ++
          [truncate16 (f mc mm a).entities.length % 256,
           truncate16 (f mc mm a).entities.length / 256 % 256]).length from rfl,
      List.take_left]
    rfl

/-- Witness for C7 at the example program's successful run. -/
theorem codegen_header_layout_witness :
    ∃ ce me L gs b,
      (exF ⟨exMainEntity, Instantiation.empty⟩ ⟨exMainMethod, Instantiation.empty⟩
        exAnalysis).entities.find?
          (fun q => q.1 = (⟨exMainEntity, Instantiation.empty⟩ : CodegenItem Entity)) =
        some ce ∧
      ce.2.methods.find?
          (fun q => q.1 = (⟨exMainMethod, Instantiation.empty⟩ : CodegenItem Method)) =
        some me ∧
      me.2.label = some L ∧
      codegen_emit
        (exF ⟨exMainEntity, Instantiation.empty⟩ ⟨exMainMethod, Instantiation.empty⟩
          exAnalysis)
        (SelectorTable.build
          (exF ⟨exMainEntity, Instantiation.empty⟩ ⟨exMainMethod, Instantiation.empty⟩
            exAnalysis))
        exAnalysis ⟨exMainEntity, Instantiation.empty⟩ ⟨exMainMethod, Instantiation.empty⟩ =
        some gs ∧
      gs.labels.lookup L = some b ∧
      exBytes.take 6 = leBytes 4 (resolveLabel b) ++
        leBytes 2 (truncate16
          (exF ⟨exMainEntity, Instantiation.empty⟩ ⟨exMainMethod, Instantiation.empty⟩
            exAnalysis).entities.length) :=
  codegen_header_layout exF exProgram exAnalysis
    ⟨exMainEntity, Instantiation.empty⟩ ⟨exMainMethod, Instantiation.empty⟩
    exBytes [] (by rfl) (by rfl)

theorem dispatchSlot_labels (g : GenState) (info : EntityReachability)
    (n : String) : (dispatchSlot g info n).labels = g.labels := by
  unfold dispatchSlot
  split
  · split
    · rfl
    · rfl
  · rfl

theorem foldl_dispatchSlot_labels (info : EntityReachability) :
    ∀ (names : List String) (g : GenState),
      (names.foldl (fun g n => dispatchSlot g info n) g).labels = g.labels := by
  intro names
  induction names with
  | nil => intro g; rfl
  | cons n ns ih => intro g; rw [List.foldl_cons, ih, dispatchSlot_labels]

theorem emit_descriptor_labels (sel : SelectorTable) (g : GenState)
    (e : CodegenItem Entity) (info : EntityReachability) :
    (emit_descriptor sel g e info).labels = g.labels := by
  unfold emit_descriptor
  rw [foldl_dispatchSlot_labels]
  rfl

theorem emit_descriptors_from_spec (sel : SelectorTable) :
    ∀ (es : List (CodegenItem Entity × EntityReachability)) (idx : Nat)
      (gs gs' : GenState),
      emit_descriptors_from sel es idx gs = some gs' →
      ∀ k (hk : k < es.length),
        gs'.labels.lookup ((es.get ⟨k, hk⟩).2.descriptor) =
          some (LabelBinding.relocatable (idx + k)) := by
  intro es
  induction es with
  | nil =>
    intro idx gs gs' h k hk
    exact absurd hk (by simp)
  | cons e rest ih =>
    intro idx gs gs' h k hk
    obtain ⟨entity, info⟩ := e
    simp only [emit_descriptors_from] at h
    split at h
    · simp at h
    · rename_i gs2 hdr
      unfold GenState.define_relocatable at hdr
      split at hdr
      · simp at hdr
      · rename_i hns
        have hnone : gs.labels.lookup info.descriptor = none :=
          Option.not_isSome_iff_eq_none.mp hns
        simp only [Option.some.injEq] at hdr
        have hlabels2 : gs2.labels =
            gs.labels ++ [(info.descriptor, LabelBinding.relocatable idx)] := by
          rw [← hdr]
        cases k with
        | zero =>
          obtain ⟨_, ⟨tl, htl⟩, _⟩ :=
            genExtends_emit_descriptors_from sel rest (idx + 1) _ gs' h
          rw [emit_descriptor_labels, hlabels2, List.append_assoc] at htl
          show gs'.labels.lookup info.descriptor =
            some (LabelBinding.relocatable (idx + 0))
          rw [htl, lookup_append_of_left_none _ _ _ hnone]
          simp [List.lookup_cons]
        | succ n =>
          have hn : n < rest.length := by simpa using hk
          have hrec := ih (idx + 1) _ gs' h n hn
          rw [List.get_cons_succ]
          have harith : idx + 1 + n = idx + (n + 1) := by omega
          rw [harith] at hrec
          exact hrec

/-- C9: descriptor emission registers the k-th reachable entity's descriptor
label at table index k — the 0-based position in the graph's iteration order. -/
theorem emit_descriptors_spec (r : Reachability) (sel : SelectorTable)
    (gs gs' : GenState) (h : emit_descriptors r sel gs = some gs') :
    ∀ k (hk : k < r.entities.length),
      gs'.labels.lookup ((r.entities.get ⟨k, hk⟩).2.descriptor) =
        some (LabelBinding.relocatable k) := by
  intro k hk
  have hrec := emit_descriptors_from_spec sel r.entities 0 gs gs' h k hk
  simpa using hrec

/-- Witness for C9 at the example graph's single entity. -/
theorem emit_descriptors_spec_witness :
    (GenState.mk [0, 0, 0, 0, 0, 0, 0] [(0, LabelBinding.relocatable 0)]
        [(3, 1, 4)]).labels.lookup
      ((exReach.entities.get ⟨0, by decide⟩).2.descriptor) =
      some (LabelBinding.relocatable 0) :=
  emit_descriptors_spec exReach (SelectorTable.build exReach) GenState.empty
    ⟨[0, 0, 0, 0, 0, 0, 0], [(0, LabelBinding.relocatable 0)], [(3, 1, 4)]⟩
    (by rfl) 0 (by decide)

theorem bodied_append (xs ys : List (CodegenItem Method × MethodReachability)) :
    bodied (xs ++ ys) = bodied xs ++ bodied ys := by
  simp [bodied, List.filter_append]

theorem emit_functions_methods_spec (analysis : AnalysisResults) :
    ∀ (ms : List (CodegenItem Method × MethodReachability)) (gs gs' : GenState),
      emit_functions_methods analysis ms gs = some gs' →
      ∃ nb,
        gs'.labels = gs.labels ++ nb ∧
        nb.map Prod.fst = (bodied ms).filterMap (fun q => q.2.label) ∧
        gs'.bytes = gs.bytes ++
          ((bodied ms).map (fun q => fnCodeOf analysis q.1)).flatten ∧
        (nb.map Prod.fst).Nodup ∧
        (∀ id ∈ nb.map Prod.fst, gs.labels.lookup id = none) := by
  intro ms
  induction ms with
  | nil =>
    intro gs gs' h
    simp only [emit_functions_methods, Option.some.injEq] at h
    subst h
    exact ⟨[], by simp, by simp [bodied], by simp [bodied], by simp, by simp⟩
  | cons q rest ih =>
    intro gs gs' h
    obtain ⟨method, method_info⟩ := q
    simp only [emit_functions_methods] at h
    split at h
    · rename_i hb
      obtain ⟨nb, h1, h2, h3, h4, h5⟩ := ih gs gs' h
      have hdrop : bodied ((method, method_info) :: rest) = bodied rest := by
        simp [bodied, List.filter_cons, hb]
      refine ⟨nb, h1, ?_, ?_, h4, h5⟩
      · rw [hdrop]
        exact h2
      · rw [hdrop]
        exact h3
    · rename_i hb
      split at h
      · simp at h
      · rename_i L hL
        split at h
        · simp at h
        · rename_i gs2 hdl
          split at h
          · simp at h
          · rename_i fa hfa
            unfold GenState.define_label at hdl
            split at hdl
            · simp at hdl
            · rename_i hns
              have hnone : gs.labels.lookup L = none :=
                Option.not_isSome_iff_eq_none.mp hns
              simp only [Option.some.injEq] at hdl
              have hl2 : gs2.labels =
                  gs.labels ++ [(L, LabelBinding.offset gs.bytes.length)] := by
                rw [← hdl]
              have hb2 : gs2.bytes = gs.bytes := by rw [← hdl]
              obtain ⟨nb', h1, h2, h3, h4, h5⟩ := ih _ gs' h
              rw [show (emit_function gs2 fa.2).labels = gs2.labels from rfl,
                hl2, List.append_assoc] at h1
              rw [show (emit_function gs2 fa.2).bytes = gs2.bytes ++ fa.2.code from rfl,
                hb2, List.append_assoc] at h3
              have hkeep : bodied ((method, method_info) :: rest) =
                  (method, method_info) :: bodied rest := by
                simp [bodied, List.filter_cons, Option.isSome_iff_ne_none.mpr hb]
              have hcode : fnCodeOf analysis method = fa.2.code := by
                unfold fnCodeOf
                rw [hfa]
              refine ⟨(L, LabelBinding.offset gs.bytes.length) :: nb',
                h1, ?_, ?_, ?_, ?_⟩
              · rw [hkeep]
                simp only [List.map_cons, List.filterMap_cons, hL]
                rw [h2]
              · rw [hkeep, List.map_cons, List.flatten_cons, hcode]
                exact h3
              · rw [List.map_cons, List.nodup_cons]
                refine ⟨?_, h4⟩
                intro hmem
                have hcontr : (gs.labels ++
                    [(L, LabelBinding.offset gs.bytes.length)]).lookup L = none := by
                  rw [← hl2]
                  exact h5 L hmem
                obtain ⟨-, hsing⟩ := lookup_append_none _ _ _ hcontr
                simp [List.lookup_cons] at hsing
              · intro id hid
                rw [List.map_cons, List.mem_cons] at hid
                rcases hid with rfl | hid
                · exact hnone
                · have hmid : (gs.labels ++
                      [(L, LabelBinding.offset gs.bytes.length)]).lookup id = none := by
                    rw [← hl2]
                    exact h5 id hid
                  exact (lookup_append_none _ _ _ hmid).1

theorem emit_functions_entities_spec (analysis : AnalysisResults) :
    ∀ (es : List (CodegenItem Entity × EntityReachability)) (gs gs' : GenState),
      emit_functions_entities analysis es gs = some gs' →
      ∃ nb,
        gs'.labels = gs.labels ++ nb ∧
        nb.map Prod.fst =
          (bodied ((es.map fun e => e.2.methods).flatten)).filterMap
            (fun q => q.2.label) ∧
        gs'.bytes = gs.bytes ++
          ((bodied ((es.map fun e => e.2.methods).flatten)).map
            (fun q => fnCodeOf analysis q.1)).flatten ∧
        (nb.map Prod.fst).Nodup ∧
        (∀ id ∈ nb.map Prod.fst, gs.labels.lookup id = none) := by
  intro es
  induction es with
  | nil =>
    intro gs gs' h
    simp only [emit_functions_entities, Option.some.injEq] at h
    subst h
    exact ⟨[], by simp, by simp [bodied], by simp [bodied], by simp, by simp⟩
  | cons e rest ih =>
    intro gs gs' h
    obtain ⟨entity, info⟩ := e
    simp only [emit_functions_entities] at h
    split at h
    · simp at h
    · rename_i gs2 hms
      obtain ⟨nb1, a1, a2, a3, a4, a5⟩ :=
        emit_functions_methods_spec analysis info.methods gs gs2 hms
      obtain ⟨nb2, c1, c2, c3, c4, c5⟩ := ih gs2 gs' h
      have hflat : ((((entity, info) :: rest).map fun e => e.2.methods).flatten) =
          info.methods ++ ((rest.map fun e => e.2.methods).flatten) := by
        simp
      refine ⟨nb1 ++ nb2, ?_, ?_, ?_, ?_, ?_⟩
      · rw [c1, a1, List.append_assoc]
      · rw [List.map_append, a2, c2, hflat, bodied_append, List.filterMap_append]
      · rw [c3, a3, hflat, bodied_append, List.map_append, List.flatten_append,
          List.append_assoc]
      · rw [List.map_append, List.nodup_append]
        refine ⟨a4, c4, ?_⟩
        intro x hx1 hx2
        have hmid := c5 x hx2
        rw [a1] at hmid
        obtain ⟨-, hn1⟩ := lookup_append_none _ _ _ hmid
        rw [lookup_eq_none_iff] at hn1
        exact hn1 hx1
      · intro id hid
        rw [List.map_append, List.mem_append] at hid
        rcases hid with hid | hid
        · exact a5 id hid
        · have hmid := c5 id hid
          rw [a1] at hmid
          exact (lookup_append_none _ _ _ hmid).1

/-- C8: function emission appends exactly one label binding and one body
encoding per reachable method with a body, in the graph's stable iteration
order, each label bound exactly once; reachable methods without a body
contribute no label binding and no bytes. -/
theorem emit_functions_spec (analysis : AnalysisResults) (r : Reachability)
    (gs gs' : GenState) (h : emit_functions analysis r gs = some gs') :
    ∃ nb,
      gs'.labels = gs.labels ++ nb ∧
      nb.map Prod.fst = (bodied (flatMethods r)).filterMap (fun q => q.2.label) ∧
      (nb.map Prod.fst).Nodup ∧
      gs'.bytes = gs.bytes ++
        ((bodied (flatMethods r)).map (fun q => fnCodeOf analysis q.1)).flatten := by
  obtain ⟨nb, h1, h2, h3, h4, h5⟩ :=
    emit_functions_entities_spec analysis r.entities gs gs' h
  exact ⟨nb, h1, h2, h4, h3⟩

/-- Witness for C8 at the example graph: one bodied method, one binding, one
body. -/
theorem emit_functions_spec_witness :
    ∃ nb,
      (GenState.mk [99] [(1, LabelBinding.offset 0)] []).labels =
        GenState.empty.labels ++ nb ∧
      nb.map Prod.fst = (bodied (flatMethods exReach)).filterMap
        (fun q => q.2.label) ∧
      (nb.map Prod.fst).Nodup ∧
      (GenState.mk [99] [(1, LabelBinding.offset 0)] []).bytes =
        GenState.empty.bytes ++
          ((bodied (flatMethods exReach)).map
            (fun q => fnCodeOf exAnalysis q.1)).flatten :=
  emit_functions_spec exAnalysis exReach GenState.empty
    ⟨[99], [(1, LabelBinding.offset 0)], []⟩ (by rfl)
